import Mathlib

/-!
Verification of the `books.toscrape.com` collector (`parser.py`) and
reporter (`analyze.py`) against their natural-language specification.

The Python functions are shallowly embedded as executable Lean
definitions: strings are handled at the `List Char` level, Python floats
holding scraped prices are modelled as exact decimal values, the
stateful page-collection loop is modelled as a function producing the
trace of its observable events (HTTP requests, log lines, sleeps)
together with its return value.
-/

namespace BooksScraper

/-! ## Character and string helpers -/

/-- Models Python `str.replace(c, "")` for a one-character pattern:
every occurrence of the character is removed. -/
def removeAll (c : Char) (l : List Char) : List Char :=
  l.filter (fun x => x != c)

/-- Models Python `str.strip()`: whitespace is removed from both ends. -/
def trimWs (l : List Char) : List Char :=
  ((l.dropWhile Char.isWhitespace).reverse.dropWhile Char.isWhitespace).reverse

/-- Value of a list of decimal digit characters, most significant first
(the way repeated `10 * acc + digit` accumulation reads a numeral). -/
def digitsVal (l : List Char) : ℕ :=
  l.foldl (fun acc c => 10 * acc + (c.toNat - 48)) 0

/-- Models Python `float()` restricted to plain decimal notation
(optional sign, integer digits, optional fraction), which is the only
shape of numeral the scraped price strings can take; anything else is
rejected, as `float()` raises `ValueError` there.  The exact value is
kept as a rational. -/
def pyFloat (l : List Char) : Option ℚ :=
  let sgn : ℚ := if l.head? = some '-' then -1 else 1
  let rest : List Char :=
    if l.head? = some '-' then l.tail else if l.head? = some '+' then l.tail else l
  let ip := rest.takeWhile Char.isDigit
  match rest.dropWhile Char.isDigit with
  | [] => if ip.isEmpty then none else some (sgn * digitsVal ip)
  | '.' :: frac =>
    if frac.all Char.isDigit && (!ip.isEmpty || !frac.isEmpty) then
      some (sgn * ((digitsVal ip : ℚ) + (digitsVal frac : ℚ) / 10 ^ frac.length))
    else none
  | _ => none

/-! ## `parser.py`: field extraction -/

/-- Embeds `parse_price` of `parser.py`:
`float(price_text.replace('£', '').replace('Â', '').strip())`.
A `none` result models the `ValueError` that makes the caller skip the
item. -/
def parse_price (price_text : String) : Option ℚ :=
  pyFloat (trimWs (removeAll 'Â' (removeAll '£' price_text.data)))

/-- The `rating_map` dictionary of `parser.py`, in its (insertion-order
preserving) iteration order. -/
def rating_map : List (String × ℕ) :=
  [("One", 1), ("Two", 2), ("Three", 3), ("Four", 4), ("Five", 5)]

/-- The `for key in rating_map` loop of `parse_rating`: the first key
contained in the class list wins, otherwise the fall-through value 0. -/
def ratingLoop : List (String × ℕ) → List String → ℕ
  | [], _ => 0
  | (k, v) :: rest, cls => if cls.contains k then v else ratingLoop rest cls

/-- Embeds `parse_rating` of `parser.py`.  Its argument is the HTML
`class` attribute value, a list of class-name tokens (for example
`["star-rating", "Three"]`). -/
def parse_rating (rating_class : List String) : ℕ :=
  ratingLoop rating_map rating_class

/-! ## The tabular data model shared by the two tools -/

/-- A non-negative decimal number `man / 10 ^ exp`.  This models the
Python float holding a scraped price: such a float always carries an
exact (non-negative) decimal value and prints back as a decimal
numeral. -/
structure DecNum where
  man : ℕ
  exp : ℕ
deriving DecidableEq, Repr

/-- The rational value of a decimal number. -/
def DecNum.toQ (d : DecNum) : ℚ := (d.man : ℚ) / 10 ^ d.exp

/-- One catalog item: the row `{title, price, rating, link}` built by
`parse_books` and stored in the CSV file. -/
structure Record where
  title : String
  price : DecNum
  rating : ℕ
  link : String
deriving DecidableEq, Repr

/-! ## `parser.py`: the retrying fetcher and the paginated driver

The loop in `parse_books` and the retry loop in `fetch_page` are
modelled as functions returning the list of their observable events —
HTTP GET requests, log lines and `time.sleep` calls — next to their
return value.  The network is abstracted as an oracle giving each
attempt's outcome, and a fetched page is abstracted as the list of
records successfully extracted from it (the per-item extraction
functions are modelled separately above). -/

/-- An observable event of the collector. -/
inductive Ev where
  | pageLog (page : ℕ)
  | get (page attempt : ℕ)
  | errLog (page attempt : ℕ)
  | giveUpLog (page : ℕ)
  | foundLog (page count : ℕ)
  | sleep (units : ℕ)
deriving DecidableEq, Repr

/-- `Ev.isGet e` holds exactly on HTTP GET events. -/
def Ev.isGet : Ev → Bool
  | .get _ _ => true
  | _ => false

/-- `Ev.isErrLog e` holds exactly on per-attempt error log lines. -/
def Ev.isErrLog : Ev → Bool
  | .errLog _ _ => true
  | _ => false

/-- The `for attempt in range(retry)` loop of `fetch_page`, starting at
a given attempt index with `fuel` iterations left.  On a failed attempt
the loop logs the error, sleeps 2 time units if it was not the last
attempt, and otherwise logs the give-up message and returns `None`. -/
def fetchAttempts (page : ℕ) (result : ℕ → Option α) :
    (attempt fuel : ℕ) → List Ev × Option α
  | _, 0 => ([], none)
  | attempt, fuel + 1 =>
    match result attempt with
    | some doc => ([.get page attempt], some doc)
    | none =>
      if fuel = 0 then
        ([.get page attempt, .errLog page attempt, .giveUpLog page], none)
      else
        let rest := fetchAttempts page result (attempt + 1) fuel
        (.get page attempt :: .errLog page attempt :: .sleep 2 :: rest.1, rest.2)

/-- Embeds `fetch_page` of `parser.py`: `retry` attempts beginning at
attempt 0; `result a` is the outcome of the GET performed by attempt
`a` (`some doc` on a 2xx response, `none` on timeout, connection error
or non-2xx status, which all raise `RequestException`). -/
def fetch_page (page : ℕ) (result : ℕ → Option α) (retry : ℕ) :
    List Ev × Option α :=
  fetchAttempts page result 0 retry

/-- The page loop body of `parse_books` over an explicit list of page
numbers.  A page whose fetch returned `None` is skipped with
`continue`; a fetched page contributes its records, the found-count log
line and the 1-unit pacing sleep. -/
def parse_pages (result : ℕ → ℕ → Option (List Record)) (retry : ℕ) :
    List ℕ → List Ev × List Record
  | [] => ([], [])
  | p :: ps =>
    let f := fetch_page p (result p) retry
    let rest := parse_pages result retry ps
    match f.2 with
    | none => (Ev.pageLog p :: f.1 ++ rest.1, rest.2)
    | some books =>
      (Ev.pageLog p :: f.1
          ++ Ev.foundLog p books.length :: Ev.sleep 1 :: rest.1,
        books ++ rest.2)

/-- Embeds `parse_books` of `parser.py`: pages `1 .. num_pages` in
order; `result p a` is the outcome of page `p`'s GET attempt `a`. -/
def parse_books (result : ℕ → ℕ → Option (List Record))
    (retry num_pages : ℕ) : List Ev × List Record :=
  parse_pages result retry (List.range' 1 num_pages)

/-! ## `analyze.py`: the filter pipeline -/

/-- Case-insensitive substring test on character lists, models
`Series.str.contains(keyword, case=False)` on a present (non-null)
title. -/
def containsSub : List Char → List Char → Bool
  | [], nee => nee.isEmpty
  | hay@(_ :: rest), nee => nee.isPrefixOf hay || containsSub rest nee

/-- Case-insensitive containment of `k` in `t` (ASCII lowering, which
covers the catalog's titles). -/
def containsCI (t k : String) : Bool :=
  containsSub (t.data.map Char.toLower) (k.data.map Char.toLower)

/-- Embeds `filter_by_price` of `analyze.py`.  The Python guard
`if max_price:` is a truthiness test, so both `None` and `0.0` leave
the table unchanged. -/
def filter_by_price (df : List Record) (max_price : Option ℚ) : List Record :=
  match max_price with
  | none => df
  | some p => if p = 0 then df else df.filter (fun r => decide (r.price.toQ ≤ p))

/-- Embeds `filter_by_keyword` of `analyze.py`; `None` and `""` are
falsy and leave the table unchanged. -/
def filter_by_keyword (df : List Record) (keyword : Option String) : List Record :=
  match keyword with
  | none => df
  | some k => if k = "" then df else df.filter (fun r => containsCI r.title k)

/-- Embeds `filter_by_rating` of `analyze.py`; `None` and `0` are falsy
and leave the table unchanged. -/
def filter_by_rating (df : List Record) (min_rating : Option ℤ) : List Record :=
  match min_rating with
  | none => df
  | some m => if m = 0 then df else df.filter (fun r => decide (m ≤ (r.rating : ℤ)))

/-- The price criterion as a plain predicate: truthy thresholds test
the price, falsy ones accept everything. -/
def pricePred (max_price : Option ℚ) (r : Record) : Bool :=
  match max_price with
  | none => true
  | some p => if p = 0 then true else decide (r.price.toQ ≤ p)

/-- The keyword criterion as a plain predicate. -/
def keywordPred (keyword : Option String) (r : Record) : Bool :=
  match keyword with
  | none => true
  | some k => if k = "" then true else containsCI r.title k

/-- The rating criterion as a plain predicate. -/
def ratingPred (min_rating : Option ℤ) (r : Record) : Bool :=
  match min_rating with
  | none => true
  | some m => if m = 0 then true else decide (m ≤ (r.rating : ℤ))

/-- A sample record with a positive price, used to exhibit boundary
behaviour of the price filter. -/
def exRec : Record :=
  ⟨"Some Book", ⟨5, 0⟩, 3, "https://books.toscrape.com/catalogue/x.html"⟩

/-- A two-row sample table with prices `5` and `3.5`. -/
def exTable : List Record :=
  [⟨"A", ⟨5, 0⟩, 3, "a"⟩, ⟨"B", ⟨35, 1⟩, 4, "b"⟩]

/-! ## CSV storage: `df.to_csv(..., index=False)` and `pd.read_csv`

The writer serializes the record sequence with the fixed header
`title,price,rating,link`, minimal quoting (a field is quoted exactly
when it contains a delimiter, a quote or a line break, with inner
quotes doubled), prices printed the way `str(float)` prints an exact
decimal value, and one line terminator after every row.

The reader models `pd.read_csv` on such files: it splits lines and
fields outside quotes, unquotes fields, drops blank lines, treats the
first line as the header, maps the default missing-value tokens
(`"NA"`, `"NaN"`, the empty field, ...) to NaN, and infers a column as
numeric exactly when all its non-missing fields parse as (non-negative
decimal) numbers, as the data columns of this dataset do. -/

/-- Title shortening for display: `x[:50] + '...' if len(x) > 50 else x`. -/
def truncTitle (s : String) : String :=
  if s.length > 50 then ⟨s.data.take 50⟩ ++ "..." else s

/-- Link shortening for display: `x[:40] + '...' if len(x) > 40 else x`. -/
def truncLink (s : String) : String :=
  if s.length > 40 then ⟨s.data.take 40⟩ ++ "..." else s

/-- Left-pads a sub-hundred value to two digits. -/
def twoDigits (n : ℕ) : String :=
  (if n < 10 then "0" else "") ++ toString n

/-- The `f"£{x:.2f}"` display format of a price: currency sign and the
value rounded to two decimal places (rounding of the half-way case is a
display-only detail; the claims do not inspect it). -/
def fmtPrice (d : DecNum) : String :=
  let cents := (d.man * 100 + 10 ^ d.exp / 2) / 10 ^ d.exp
  "£" ++ toString (cents / 100) ++ "." ++ twoDigits (cents % 100)

/-- One row of the rendered table, after display formatting. -/
structure DisplayRow where
  title : String
  price : String
  rating : ℕ
  link : String
deriving DecidableEq, Repr

/-- The observable output of `display_results`: either the no-results
notice alone (no table, no statistics), or the rendered table rows
together with the found/shown counts and the four statistics. -/
inductive DisplayOut where
  | noResults
  | table (rows : List DisplayRow) (found shown : ℕ)
      (meanPrice minPrice maxPrice meanRating : ℚ)
deriving DecidableEq

/-- Display formatting of one record. -/
def mkDisplayRow (r : Record) : DisplayRow :=
  ⟨truncTitle r.title, fmtPrice r.price, r.rating, truncLink r.link⟩

/-- `Series.mean()`: sum over length. -/
def qMean (l : List ℚ) : ℚ := l.sum / l.length

/-- `Series.min()` of a non-empty column (0 as junk value on `[]`,
never used by the renderer, which guards against emptiness first). -/
def qMinList (l : List ℚ) : ℚ :=
  match l with
  | [] => 0
  | x :: xs => xs.foldl min x

/-- `Series.max()` of a non-empty column. -/
def qMaxList (l : List ℚ) : ℚ :=
  match l with
  | [] => 0
  | x :: xs => xs.foldl max x

/-- Embeds `display_results` of `analyze.py`: on an empty table only the
no-results notice; otherwise `head(top_n)` formatted rows, the count of
matches and of shown rows, and the statistics computed from the *full*
table `df`, not from the truncated `display_df`. -/
def display_results (df : List Record) (top_n : ℕ) : DisplayOut :=
  if df.isEmpty then .noResults
  else
    let rows := (df.take top_n).map mkDisplayRow
    .table rows df.length rows.length
      (qMean (df.map (fun r => r.price.toQ)))
      (qMinList (df.map (fun r => r.price.toQ)))
      (qMaxList (df.map (fun r => r.price.toQ)))
      (qMean (df.map (fun r => (r.rating : ℚ))))

/-! ### Facts about digit and whitespace characters -/

theorem digit_char_facts {c : Char} (h : c.isDigit = true) :
    c ≠ '£' ∧ c ≠ 'Â' ∧ c ≠ '.' ∧ c ≠ '-' ∧ c ≠ '+' := by
  refine ⟨?_, ?_, ?_, ?_, ?_⟩ <;> rintro rfl <;> exact absurd h (by decide)

theorem digit_not_ws {c : Char} (h : c.isDigit = true) : c.isWhitespace = false := by
  by_contra hws
  have hws' : c.isWhitespace = true := by
    cases hw : c.isWhitespace
    · exact absurd hw hws
    · rfl
  have : c = ' ' ∨ c = '\t' ∨ c = '\r' ∨ c = '\n' := by
    simpa [Char.isWhitespace, or_assoc] using hws'
  rcases this with rfl | rfl | rfl | rfl <;> exact absurd h (by decide)

theorem ws_char_facts {c : Char} (h : c.isWhitespace = true) :
    c ≠ '£' ∧ c ≠ 'Â' ∧ c.isDigit = false := by
  have : c = ' ' ∨ c = '\t' ∨ c = '\r' ∨ c = '\n' := by
    simpa [Char.isWhitespace, or_assoc] using h
  rcases this with rfl | rfl | rfl | rfl <;> exact ⟨by decide, by decide, by decide⟩

/-! ### Rewriting lemmas for the character-list helpers -/

theorem removeAll_append (c : Char) (a b : List Char) :
    removeAll c (a ++ b) = removeAll c a ++ removeAll c b :=
  List.filter_append ..

theorem removeAll_id {c : Char} {l : List Char} (h : ∀ x ∈ l, x ≠ c) :
    removeAll c l = l := by
  refine List.filter_eq_self.mpr ?_
  intro x hx
  simpa using h x hx

theorem dropWhile_append_all {p : Char → Bool} {a : List Char} (b : List Char)
    (h : ∀ x ∈ a, p x = true) :
    List.dropWhile p (a ++ b) = List.dropWhile p b := by
  induction a with
  | nil => rfl
  | cons x xs ih =>
    simp only [List.cons_append, List.dropWhile_cons, h x (by simp)]
    exact ih (fun y hy => h y (by simp [hy]))

theorem dropWhile_head_stop {p : Char → Bool} {l : List Char}
    (hne : l ≠ []) (h : ∀ c ∈ l.head?, p c = false) :
    List.dropWhile p l = l := by
  cases l with
  | nil => exact absurd rfl hne
  | cons x xs => simp [List.dropWhile_cons, h x (by simp)]

theorem takeWhile_append_stop {p : Char → Bool} {a : List Char} (c : Char)
    (rest : List Char) (ha : ∀ x ∈ a, p x = true) (hc : p c = false) :
    List.takeWhile p (a ++ c :: rest) = a := by
  induction a with
  | nil => simp [List.takeWhile_cons, hc]
  | cons x xs ih =>
    simp only [List.cons_append, List.takeWhile_cons, ha x (by simp)]
    simp [ih (fun y hy => ha y (by simp [hy]))]

theorem dropWhile_append_stop {p : Char → Bool} {a : List Char} (c : Char)
    (rest : List Char) (ha : ∀ x ∈ a, p x = true) (hc : p c = false) :
    List.dropWhile p (a ++ c :: rest) = c :: rest := by
  rw [dropWhile_append_all (c :: rest) ha]
  simp [List.dropWhile_cons, hc]

/-- `trimWs` removes exactly the surrounding whitespace when the middle
part neither starts nor ends with whitespace. -/
theorem trimWs_sandwich {w1 w2 m : List Char}
    (hw1 : ∀ c ∈ w1, c.isWhitespace = true) (hw2 : ∀ c ∈ w2, c.isWhitespace = true)
    (hne : m ≠ []) (hhd : ∀ c ∈ m.head?, c.isWhitespace = false)
    (hlast : ∀ c ∈ m.getLast?, c.isWhitespace = false) :
    trimWs (w1 ++ m ++ w2) = m := by
  unfold trimWs
  rw [List.append_assoc, dropWhile_append_all (m ++ w2) hw1]
  cases m with
  | nil => exact absurd rfl hne
  | cons x xs =>
    rw [List.cons_append, List.dropWhile_cons]
    rw [hhd x (by simp)]
    simp only [Bool.false_eq_true, if_false]
    rw [← List.cons_append, List.reverse_append]
    rw [dropWhile_append_all (x :: xs).reverse (fun c hc => hw2 c (List.mem_reverse.mp hc))]
    rw [dropWhile_head_stop (by simp) ?hd]
    · simp
    case hd =>
      intro c hc
      rw [List.head?_reverse] at hc
      exact hlast c hc

/-! ### The positive and negative behaviour of `parse_price` (C6) -/

/-- C6: For every price string of the form `"£X"` with `X` a decimal
numeral (digits, dot, digits), with or without the mis-decoding
artifact `Â` before the currency sign and with or without surrounding
whitespace, `parse_price` strips the currency sign, the artifact and
the whitespace and yields exactly the value of the numeral; when the
remainder is not numeric (for example `"£abc"` or an empty string) the
extraction fails with `none`, making the caller skip the item. -/
theorem parse_price_spec (a b w1 w2 : List Char) (art : Bool)
    (ha : ∀ c ∈ a, c.isDigit = true) (hb : ∀ c ∈ b, c.isDigit = true)
    (ha0 : a ≠ []) (hb0 : b ≠ [])
    (hw1 : ∀ c ∈ w1, c.isWhitespace = true)
    (hw2 : ∀ c ∈ w2, c.isWhitespace = true) :
    (parse_price ⟨w1 ++ (if art then ['Â'] else []) ++ '£' :: (a ++ '.' :: b) ++ w2⟩
      = some ((digitsVal a : ℚ) + (digitsVal b : ℚ) / 10 ^ b.length))
  ∧ parse_price "£abc" = none ∧ parse_price "" = none := by
  refine ⟨?_, by decide, by decide⟩
  have hmid : trimWs (removeAll 'Â' (removeAll '£'
      (w1 ++ (if art then ['Â'] else []) ++ '£' :: (a ++ '.' :: b) ++ w2)))
      = a ++ '.' :: b := by
    have hw1' : ∀ x ∈ w1, x ≠ '£' := fun x hx => (ws_char_facts (hw1 x hx)).1
    have hw1'' : ∀ x ∈ w1, x ≠ 'Â' := fun x hx => (ws_char_facts (hw1 x hx)).2.1
    have hw2' : ∀ x ∈ w2, x ≠ '£' := fun x hx => (ws_char_facts (hw2 x hx)).1
    have hw2'' : ∀ x ∈ w2, x ≠ 'Â' := fun x hx => (ws_char_facts (hw2 x hx)).2.1
    have hm' : ∀ x ∈ a ++ '.' :: b, x ≠ '£' := by
      intro x hx
      rcases List.mem_append.mp hx with hxa | hxb
      · exact (digit_char_facts (ha x hxa)).1
      · rcases List.mem_cons.mp hxb with rfl | hxb'
        · decide
        · exact (digit_char_facts (hb x hxb')).1
    have hm'' : ∀ x ∈ a ++ '.' :: b, x ≠ 'Â' := by
      intro x hx
      rcases List.mem_append.mp hx with hxa | hxb
      · exact (digit_char_facts (ha x hxa)).2.1
      · rcases List.mem_cons.mp hxb with rfl | hxb'
        · decide
        · exact (digit_char_facts (hb x hxb')).2.1
    have h1 : removeAll '£'
        (w1 ++ (if art then ['Â'] else []) ++ '£' :: (a ++ '.' :: b) ++ w2)
        = w1 ++ (if art then ['Â'] else []) ++ (a ++ '.' :: b) ++ w2 := by
      rw [removeAll_append, removeAll_append, removeAll_append]
      rw [removeAll_id hw1', removeAll_id hw2']
      have hart : removeAll '£' (if art then ['Â'] else [])
          = (if art then ['Â'] else []) := by cases art <;> decide
      rw [hart]
      show _ ++ _ ++ removeAll '£' ('£' :: (a ++ '.' :: b)) ++ _ = _
      rw [show '£' :: (a ++ '.' :: b) = ['£'] ++ (a ++ '.' :: b) from rfl,
        removeAll_append, removeAll_id hm']
      rfl
    have h2 : removeAll 'Â'
        (w1 ++ (if art then ['Â'] else []) ++ (a ++ '.' :: b) ++ w2)
        = w1 ++ (a ++ '.' :: b) ++ w2 := by
      rw [removeAll_append, removeAll_append, removeAll_append]
      rw [removeAll_id hw1'', removeAll_id hw2'', removeAll_id hm'']
      have hart : removeAll 'Â' (if art then ['Â'] else []) = [] := by
        cases art <;> decide
      rw [hart]
      simp
    rw [h1, h2]
    refine trimWs_sandwich hw1 hw2 (by simp) ?_ ?_
    · cases a with
      | nil => exact absurd rfl ha0
      | cons x xs =>
        intro c hc
        have hxc : c = x := by
          simp only [List.cons_append, List.head?_cons, Option.mem_def,
            Option.some.injEq] at hc
          exact hc.symm
        subst hxc
        exact digit_not_ws (ha c (by simp))
    · intro c hc
      have hbl : (a ++ '.' :: b).getLast? = b.getLast? := by
        cases b with
        | nil => exact absurd rfl hb0
        | cons y ys =>
          rw [List.getLast?_append, List.getLast?_cons_cons]
          cases h : (y :: ys).getLast? with
          | none => exact absurd (List.getLast?_eq_none_iff.mp h) (by simp)
          | some z => rfl
      rw [hbl] at hc
      have : c ∈ b := List.mem_of_mem_getLast? hc
      exact digit_not_ws (hb c this)
  show pyFloat (trimWs (removeAll 'Â' (removeAll '£' _))) = _
  rw [hmid]
  unfold pyFloat
  cases a with
  | nil => exact absurd rfl ha0
  | cons x xs =>
    have hx : x.isDigit = true := ha x (by simp)
    have hxm : x ≠ '-' := (digit_char_facts hx).2.2.2.1
    have hxp : x ≠ '+' := (digit_char_facts hx).2.2.2.2
    have hhd : ((x :: xs) ++ '.' :: b).head? = some x := by simp
    rw [hhd]
    simp only [Option.some.injEq]
    rw [if_neg hxm, if_neg hxm, if_neg hxp]
    rw [takeWhile_append_stop '.' b ha (by decide),
      dropWhile_append_stop '.' b ha (by decide)]
    have hball : b.all Char.isDigit = true := List.all_eq_true.mpr hb
    simp [hball, ha0, hb0]

/-- Witness for C6: `parse_price " Â£12.34 "` (with artifact and
surrounding whitespace) yields `12.34`. -/
theorem parse_price_spec_witness :
    parse_price ⟨[' ', 'Â', '£', '1', '2', '.', '3', '4', ' ']⟩
      = some ((digitsVal ['1', '2'] : ℚ)
          + (digitsVal ['3', '4'] : ℚ) / 10 ^ (['3', '4'] : List Char).length) := by
  have h := (parse_price_spec ['1', '2'] ['3', '4'] [' '] [' '] true
    (by decide) (by decide) (by decide) (by decide) (by decide) (by decide)).1
  simpa using h

/-- C5: For every rating class input, `parse_rating` returns the
integer 1–5 corresponding to the first of the five known tokens (One,
Two, Three, Four, Five, checked in that fixed order of precedence) that
the class list contains, and returns 0 when none of the five tokens is
present; being a total function it never fails. -/
theorem parse_rating_spec (cls : List String) :
    ("One" ∈ cls → parse_rating cls = 1)
  ∧ ("One" ∉ cls → "Two" ∈ cls → parse_rating cls = 2)
  ∧ ("One" ∉ cls → "Two" ∉ cls → "Three" ∈ cls → parse_rating cls = 3)
  ∧ ("One" ∉ cls → "Two" ∉ cls → "Three" ∉ cls → "Four" ∈ cls →
      parse_rating cls = 4)
  ∧ ("One" ∉ cls → "Two" ∉ cls → "Three" ∉ cls → "Four" ∉ cls →
      "Five" ∈ cls → parse_rating cls = 5)
  ∧ ("One" ∉ cls → "Two" ∉ cls → "Three" ∉ cls → "Four" ∉ cls →
      "Five" ∉ cls → parse_rating cls = 0) := by
  refine ⟨?_, ?_, ?_, ?_, ?_, ?_⟩ <;> intros <;>
    simp_all [parse_rating, rating_map, ratingLoop, List.elem_iff]

/-- Witness for C5 at the class list `["star-rating", "Three"]`. -/
theorem parse_rating_spec_witness : parse_rating ["star-rating", "Three"] = 3 :=
  (parse_rating_spec ["star-rating", "Three"]).2.2.1 (by decide) (by decide)
    (by decide)

/-- The retry loop never sleeps 1 unit: its only sleeps are the 2-unit
between-attempt delays. -/
theorem fetchAttempts_no_sleep1 (page : ℕ) (result : ℕ → Option α) :
    ∀ fuel attempt, Ev.sleep 1 ∉ (fetchAttempts page result attempt fuel).1 := by
  intro fuel
  induction fuel with
  | zero => intro attempt; simp [fetchAttempts]
  | succ n ih =>
    intro attempt
    unfold fetchAttempts
    cases h : result attempt with
    | some doc => simp [h]
    | none =>
      by_cases hn : n = 0
      · subst hn; simp [h]
      · simp only [h, if_neg hn, List.mem_cons, not_or]
        exact ⟨by simp, by simp, by simp, ih (attempt + 1)⟩

/-- Every page number handed to the driver gets its page log line (and
hence its fetch), whatever the outcomes of all fetches: a failed page
never aborts the processing of the pages after it. -/
theorem parse_pages_pageLog (result : ℕ → ℕ → Option (List Record))
    (retry : ℕ) :
    ∀ ps p, p ∈ ps → Ev.pageLog p ∈ (parse_pages result retry ps).1 := by
  intro ps
  induction ps with
  | nil => intro p hp; exact absurd hp (by simp)
  | cons q qs ih =>
    intro p hp
    rcases List.mem_cons.mp hp with rfl | hp'
    · unfold parse_pages
      cases h : (fetch_page p (result p) retry).2 <;> simp [h]
    · unfold parse_pages
      cases h : (fetch_page q (result q) retry).2 <;>
        simp [h, List.mem_append, ih p hp']

/-- C3 counterexample: two pages, every GET fails.  The run performs no
1-unit pacing sleep at all — in particular page 1, whose fetch failed
after its retries, is *not* followed by the pacing sleep — even though
page 2 is still requested afterwards. -/
theorem pacing_sleep_missing_after_failed_page :
    (parse_books (fun _ _ => none) 3 2).1.count (Ev.sleep 1) = 0
  ∧ Ev.pageLog 2 ∈ (parse_books (fun _ _ => none) 3 2).1 := by decide

/-- C3 (amended): the 1-unit pacing sleep follows each *successfully
fetched* page (one sleep per page whose fetch produced a document); a
page whose fetch failed after retries is skipped with `continue`, so no
pacing sleep separates it from the next page request. -/
theorem pacing_sleep_per_successful_page
    (result : ℕ → ℕ → Option (List Record)) (retry N : ℕ) :
    (parse_books result retry N).1.count (Ev.sleep 1)
      = ((List.range' 1 N).filter
          (fun p => (fetch_page p (result p) retry).2.isSome)).length := by
  show (parse_pages result retry (List.range' 1 N)).1.count (Ev.sleep 1) = _
  generalize List.range' 1 N = ps
  induction ps with
  | nil => rfl
  | cons p ps ih =>
    have hf := fetchAttempts_no_sleep1 p (result p) retry 0
    have hf0 : (fetch_page p (result p) retry).1.count (Ev.sleep 1) = 0 :=
      List.count_eq_zero.mpr hf
    unfold parse_pages
    cases h : (fetch_page p (result p) retry).2 with
    | none =>
      simp [h, List.count_cons, List.count_append, hf0, ih, List.filter_cons]
    | some books =>
      simp [h, List.count_cons, List.count_append, hf0, ih, List.filter_cons]

/-- C4: if every GET attempt for a page fails and the attempt budget is
`R ≥ 1`, then `fetch_page` makes exactly `R` GET attempts, logs one
error message per attempt, sleeps the fixed 2 units between consecutive
attempts (`R - 1` sleeps, and every sleep it performs is 2 units),
returns `None`; and independently of any fetch outcomes the driver
still processes every page of its range, so the failure aborts no
subsequent page. -/
theorem fetch_page_exhaustion_spec (page R : ℕ)
    (result : ℕ → Option (List Record))
    (res2 : ℕ → ℕ → Option (List Record)) (retry N : ℕ)
    (hR : 1 ≤ R) (hfail : ∀ a, result a = none) :
    (fetch_page page result R).2 = none
  ∧ (fetch_page page result R).1.countP Ev.isGet = R
  ∧ (fetch_page page result R).1.countP Ev.isErrLog = R
  ∧ (fetch_page page result R).1.count (Ev.sleep 2) = R - 1
  ∧ (∀ u, Ev.sleep u ∈ (fetch_page page result R).1 → u = 2)
  ∧ (∀ q, q ∈ List.range' 1 N → Ev.pageLog q ∈ (parse_books res2 retry N).1) := by
  have main : ∀ fuel attempt, 1 ≤ fuel →
      (fetchAttempts page result attempt fuel).2 = none
    ∧ (fetchAttempts page result attempt fuel).1.countP Ev.isGet = fuel
    ∧ (fetchAttempts page result attempt fuel).1.countP Ev.isErrLog = fuel
    ∧ (fetchAttempts page result attempt fuel).1.count (Ev.sleep 2) = fuel - 1
    ∧ (∀ u, Ev.sleep u ∈ (fetchAttempts page result attempt fuel).1 → u = 2) := by
    intro fuel
    induction fuel with
    | zero => intro attempt h; exact absurd h (by simp)
    | succ n ih =>
      intro attempt _
      unfold fetchAttempts
      rw [hfail attempt]
      by_cases hn : n = 0
      · subst hn
        refine ⟨rfl, rfl, rfl, rfl, ?_⟩
        intro u hu
        simp [Ev.sleep, List.mem_cons] at hu
      · obtain ⟨h1, h2, h3, h4, h5⟩ := ih (attempt + 1) (Nat.one_le_iff_ne_zero.mpr hn)
        rw [if_neg hn]
        refine ⟨h1, ?_, ?_, ?_, ?_⟩
        · simp [List.countP_cons, h2, Ev.isGet, Ev.isErrLog]
        · simp [List.countP_cons, h3, Ev.isGet, Ev.isErrLog]
        · simp only [List.count_cons, h4]
          have : Ev.sleep 2 ≠ Ev.get page attempt ∧
              Ev.sleep 2 ≠ Ev.errLog page attempt := by
            exact ⟨by simp, by simp⟩
          simp [this.1, this.2]
          omega
        · intro u hu
          simp only [List.mem_cons] at hu
          rcases hu with h | h | h | h
          · exact absurd h (by simp)
          · exact absurd h (by simp)
          · exact (Ev.sleep.injEq u 2).mp (congrArg id h) |>.symm ▸ rfl
          · exact h5 u h
  obtain ⟨h1, h2, h3, h4, h5⟩ := main R 0 hR
  exact ⟨h1, h2, h3, h4, h5, fun q hq => parse_pages_pageLog res2 retry _ q hq⟩

/-- Witness for C4: three failing attempts on page 1 yield `None`, and
with every fetch of a 2-page run failing, page 2 is still processed. -/
theorem fetch_page_exhaustion_spec_witness :
    (fetch_page 1 (fun _ => (none : Option (List Record))) 3).2 = none
  ∧ Ev.pageLog 2 ∈ (parse_books (fun _ _ => none) 3 2).1 := by
  have h := fetch_page_exhaustion_spec 1 3 (fun _ => none) (fun _ _ => none) 3 2
    (by decide) (fun _ => rfl)
  exact ⟨h.1, h.2.2.2.2.2 2 (by decide)⟩

theorem filter_by_price_eq_filter (df : List Record) (mp : Option ℚ) :
    filter_by_price df mp = df.filter (pricePred mp) := by
  cases mp with
  | none =>
    have h : pricePred none = fun _ : Record => true := by funext r; simp [pricePred]
    simp [filter_by_price, h, List.filter_true]
  | some p =>
    by_cases hp : p = 0
    · subst hp
      have h : pricePred (some (0 : ℚ)) = fun _ : Record => true := by
        funext r; simp [pricePred]
      simp [filter_by_price, h, List.filter_true]
    · have h : pricePred (some p) = fun r : Record => decide (r.price.toQ ≤ p) := by
        funext r; simp [pricePred, hp]
      simp [filter_by_price, hp, h]

theorem filter_by_keyword_eq_filter (df : List Record) (kw : Option String) :
    filter_by_keyword df kw = df.filter (keywordPred kw) := by
  cases kw with
  | none =>
    have h : keywordPred none = fun _ : Record => true := by funext r; simp [keywordPred]
    simp [filter_by_keyword, h, List.filter_true]
  | some k =>
    by_cases hk : k = ""
    · subst hk
      have h : keywordPred (some "") = fun _ : Record => true := by
        funext r; simp [keywordPred]
      simp [filter_by_keyword, h, List.filter_true]
    · have h : keywordPred (some k) = fun r : Record => containsCI r.title k := by
        funext r; simp [keywordPred, hk]
      simp [filter_by_keyword, hk, h]

theorem filter_by_rating_eq_filter (df : List Record) (mr : Option ℤ) :
    filter_by_rating df mr = df.filter (ratingPred mr) := by
  cases mr with
  | none =>
    have h : ratingPred none = fun _ : Record => true := by funext r; simp [ratingPred]
    simp [filter_by_rating, h, List.filter_true]
  | some m =>
    by_cases hm : m = 0
    · subst hm
      have h : ratingPred (some (0 : ℤ)) = fun _ : Record => true := by
        funext r; simp [ratingPred]
      simp [filter_by_rating, h, List.filter_true]
    · have h : ratingPred (some m) = fun r : Record => decide (m ≤ (r.rating : ℤ)) := by
        funext r; simp [ratingPred, hm]
      simp [filter_by_rating, hm, h]

/-- C9: For every record table and every choice of price threshold,
keyword and rating threshold, applying the three filters (price,
keyword, rating) in any of the six possible orders yields the same
resulting sequence: the filters commute with each other. -/
theorem filters_commute (df : List Record) (mp : Option ℚ)
    (kw : Option String) (mr : Option ℤ) :
    (filter_by_rating (filter_by_keyword (filter_by_price df mp) kw) mr
      = filter_by_rating (filter_by_price (filter_by_keyword df kw) mp) mr)
  ∧ (filter_by_rating (filter_by_keyword (filter_by_price df mp) kw) mr
      = filter_by_keyword (filter_by_rating (filter_by_price df mp) mr) kw)
  ∧ (filter_by_rating (filter_by_keyword (filter_by_price df mp) kw) mr
      = filter_by_keyword (filter_by_price (filter_by_rating df mr) mp) kw)
  ∧ (filter_by_rating (filter_by_keyword (filter_by_price df mp) kw) mr
      = filter_by_price (filter_by_rating (filter_by_keyword df kw) mr) mp)
  ∧ (filter_by_rating (filter_by_keyword (filter_by_price df mp) kw) mr
      = filter_by_price (filter_by_keyword (filter_by_rating df mr) kw) mp) := by
  simp only [filter_by_price_eq_filter, filter_by_keyword_eq_filter,
    filter_by_rating_eq_filter, List.filter_filter]
  refine ⟨?_, ?_, ?_, ?_, ?_⟩ <;>
    exact List.filter_congr (fun r _ => by
      cases pricePred mp r <;> cases keywordPred kw r <;> cases ratingPred mr r <;> rfl)

/-- C10: Each filter function treats a falsy argument as absent:
`filter_by_price` with threshold `None` or `0`, `filter_by_rating` with
threshold `None` or `0`, and `filter_by_keyword` with `None` or the
empty string each return the input table unchanged. -/
theorem filters_falsy_noop (df : List Record) :
    filter_by_price df none = df ∧ filter_by_price df (some 0) = df
  ∧ filter_by_rating df none = df ∧ filter_by_rating df (some 0) = df
  ∧ filter_by_keyword df none = df ∧ filter_by_keyword df (some "") = df := by
  refine ⟨rfl, ?_, rfl, ?_, rfl, ?_⟩ <;>
    simp [filter_by_price, filter_by_rating, filter_by_keyword]

/-- C1 counterexample: with threshold `P = 0` the price filter keeps a
record whose price `5` is greater than `P`, because `0` is falsy in
Python and disables the filter — so the filter does not, for every
threshold, exclude every record priced above the threshold. -/
theorem price_filter_at_zero_keeps_positive :
    exRec ∈ filter_by_price [exRec] (some 0) ∧ 0 < exRec.price.toQ := by
  constructor
  · simp [filter_by_price]
  · norm_num [exRec, DecNum.toQ]

/-- C1 (amended): for every record table and every *non-zero* price
threshold `P`, the price filter yields exactly the subsequence of
records whose price is `≤ P`: every kept record has price `≤ P` and
every record of the original table with price `> P` is excluded. -/
theorem filter_by_price_spec (df : List Record) (P : ℚ) (hP : P ≠ 0) :
    filter_by_price df (some P) = df.filter (fun r => decide (r.price.toQ ≤ P))
  ∧ (∀ r ∈ filter_by_price df (some P), r.price.toQ ≤ P)
  ∧ (∀ r ∈ df, P < r.price.toQ → r ∉ filter_by_price df (some P)) := by
  have heq : filter_by_price df (some P)
      = df.filter (fun r => decide (r.price.toQ ≤ P)) := by
    simp [filter_by_price, hP]
  refine ⟨heq, ?_, ?_⟩
  · intro r hr
    rw [heq, List.mem_filter] at hr
    exact of_decide_eq_true hr.2
  · intro r _ hlt hmem
    rw [heq, List.mem_filter] at hmem
    have := of_decide_eq_true hmem.2
    linarith

/-- Witness for the amended C1 at table `exTable` and threshold `4`. -/
theorem filter_by_price_spec_witness :
    (4 : ℚ) ≠ 0 ∧ ∀ r ∈ filter_by_price exTable (some 4), r.price.toQ ≤ 4 :=
  ⟨by norm_num, (filter_by_price_spec exTable 4 (by norm_num)).2.1⟩

/-- A string and its character list are interchangeable. -/
theorem mk_data (s : String) : (⟨s.data⟩ : String) = s := rfl

/-- C8: For every display cap, on an empty filtered/sorted sequence the
renderer emits only the no-results notice — no table, no statistics —
and, being a total function, does not crash; on a non-empty sequence it
renders at most cap rows (the first `min cap length` of them) while the
printed statistics (mean/min/max price, mean rating) and the match
count are computed over the full sequence, not just the displayed
rows. -/
theorem display_results_spec (df : List Record) (n : ℕ) :
    (display_results df n = .noResults ↔ df = [])
  ∧ (df ≠ [] →
      display_results df n
        = .table ((df.take n).map mkDisplayRow) df.length (min n df.length)
            (qMean (df.map (fun r => r.price.toQ)))
            (qMinList (df.map (fun r => r.price.toQ)))
            (qMaxList (df.map (fun r => r.price.toQ)))
            (qMean (df.map (fun r => (r.rating : ℚ))))
      ∧ ((df.take n).map mkDisplayRow).length ≤ n) := by
  cases df with
  | nil => exact ⟨by simp [display_results], by simp⟩
  | cons r rs =>
    refine ⟨by simp [display_results], fun _ => ⟨?_, ?_⟩⟩
    · simp [display_results, List.length_take, List.length_map]
    · simp only [List.length_map, List.length_take]
      omega

/-- Witness for C8 at the two-row table `exTable` with cap 1. -/
theorem display_results_spec_witness :
    exTable ≠ []
  ∧ display_results exTable 1
      = .table ((exTable.take 1).map mkDisplayRow) exTable.length
          (min 1 exTable.length)
          (qMean (exTable.map (fun r => r.price.toQ)))
          (qMinList (exTable.map (fun r => r.price.toQ)))
          (qMaxList (exTable.map (fun r => r.price.toQ)))
          (qMean (exTable.map (fun r => (r.rating : ℚ)))) :=
  ⟨by simp [exTable],
    ((display_results_spec exTable 1).2 (by simp [exTable])).1⟩

end BooksScraper
